import Mathlib

/-!
Shallow embedding of the association-rule mining pipeline of
`N-Map_Deploy/modules/mining.py` (`run_apriori_analysis`) together with the
library calls it delegates to (`TransactionEncoder`, `apriori`,
`association_rules` from mlxtend).

Conventions of the embedding:
- an item is a `String`; a transaction is encoded as the `Finset` of its
  distinct items (the one-hot row of `TransactionEncoder`);
- 64-bit floats are modelled as exact rationals: every quantity involved is a
  ratio of small integer counts, and all comparisons in the code are plain
  `>=` comparisons of such ratios;
- itemsets produced by the miner are kept as sorted duplicate-free lists of
  items (mlxtend enumerates candidates as tuples of column indices in
  ascending order; the sorted list is that canonical form);
- raised exceptions are modelled with `Except`; the pipeline catches every
  exception of the two library stages and returns an empty result.
-/

namespace NMap

/-- One-hot encoding step of `TransactionEncoder`: each transaction becomes the
set of its distinct item labels (duplicates inside one transaction collapse). -/
def encodeTransactions (transactions : List (List String)) : List (Finset String) :=
  transactions.map List.toFinset

/-- Lexicographic strict order on code-point sequences, the order Python uses
to compare strings. -/
def charListLTb : List Char → List Char → Bool
  | [], [] => false
  | [], _ :: _ => true
  | _ :: _, [] => false
  | a :: as, b :: bs =>
    if a.val < b.val then true
    else if b.val < a.val then false
    else charListLTb as bs

/-- Strict lexicographic order on strings (Python string comparison). -/
def strLTb (a b : String) : Bool := charListLTb a.data b.data

/-- Vocabulary of the encoder (`te.columns_`): the distinct items across all
transactions, sorted ascending — the one-hot columns appear in this order. -/
def vocabList (transactions : List (List String)) : List String :=
  List.insertionSort (fun a b => strLTb b a = false) (transactions.flatMap id).dedup

/-- Number of transactions containing `s` as a subset (exact integer count). -/
def supportCount (ts : List (Finset String)) (s : Finset String) : ℕ :=
  (ts.filter (fun t => decide (s ⊆ t))).length

/-- Support of an itemset: exact count divided by the total transaction count
(empty transactions are part of the denominator). -/
def supportFrac (ts : List (Finset String)) (s : Finset String) : ℚ :=
  (supportCount ts s : ℚ) / (ts.length : ℚ)

/-- Level-by-level frequent-itemset search of mlxtend `apriori`: level `k + 1`
keeps the size-`(k + 1)` subsets of the vocabulary all of whose maximal proper
subsets survived level `k` (downward-closure candidate generation) and whose
support meets `min_support` (inclusive `>=`).  Level `0` is the seed. -/
def freqLevel (ts : List (Finset String)) (minSupport : ℚ) (vocab : List String) :
    ℕ → List (List String)
  | 0 => [[]]
  | k + 1 =>
    (List.sublistsLen (k + 1) vocab).filter fun c =>
      c.all (fun x => decide ((c.erase x) ∈ freqLevel ts minSupport vocab k)) &&
        decide (minSupport ≤ supportFrac ts c.toFinset)

/-- Rows of the `frequent_itemsets` frame returned by `apriori` with
`use_colnames=True`: every frequent itemset paired with its support, listed
level by level. -/
def frequentItemsets (transactions : List (List String)) (minSupport : ℚ) :
    List (List String × ℚ) :=
  (List.range (vocabList transactions).length).flatMap fun k =>
    (freqLevel (encodeTransactions transactions) minSupport (vocabList transactions)
        (k + 1)).map fun c =>
      (c, supportFrac (encodeTransactions transactions) c.toFinset)

/-- mlxtend `apriori`, exception included: it raises a `ValueError` for a
non-positive `min_support` before mining, otherwise returns the frequent
itemsets. -/
def aprioriExc (transactions : List (List String)) (minSupport : ℚ) :
    Except String (List (List String × ℚ)) :=
  if minSupport ≤ 0 then
    Except.error "min_support must be a positive number within the interval (0, 1]"
  else
    Except.ok (frequentItemsets transactions minSupport)

/-- One row of the rules frame produced by `association_rules` (the metric
columns the pipeline touches). -/
structure Rule where
  antecedents : List String
  consequents : List String
  support : ℚ
  confidence : ℚ
  lift : ℚ
deriving DecidableEq

/-- Candidate rules derived from one frequent itemset by `association_rules`:
each non-empty proper subset is an antecedent (enumerated by decreasing size),
the complement inside the itemset is the consequent, and a rule is kept when
its confidence meets `min_threshold` (inclusive `>=`).  The support lookups of
the library resolve to the exact support of the corresponding itemset. -/
def rulesFrom (ts : List (Finset String)) (itemset : List String)
    (minConfidence : ℚ) : List Rule :=
  (List.range (itemset.length - 1)).flatMap fun i =>
    (List.sublistsLen (itemset.length - 1 - i) itemset).filterMap fun ant =>
      if minConfidence ≤ supportFrac ts itemset.toFinset / supportFrac ts ant.toFinset
      then
        some ⟨ant, itemset.filter (fun x => decide (x ∉ ant)),
              supportFrac ts itemset.toFinset,
              supportFrac ts itemset.toFinset / supportFrac ts ant.toFinset,
              supportFrac ts itemset.toFinset / supportFrac ts ant.toFinset /
                supportFrac ts (itemset.filter (fun x => decide (x ∉ ant))).toFinset⟩
      else none

/-- mlxtend `association_rules` with `metric="confidence"`, exception
included: it raises a `ValueError` when the frequent-itemset frame is empty,
otherwise scores every antecedent/consequent split of every frequent
itemset. -/
def associationRulesExc (ts : List (Finset String))
    (freq : List (List String × ℚ)) (minConfidence : ℚ) : Except String (List Rule) :=
  if freq = [] then
    Except.error "The input DataFrame df containing the frequent itemsets is empty."
  else
    Except.ok (freq.flatMap fun p => rulesFrom ts p.1 minConfidence)

/-- `run_apriori_analysis` of `modules/mining.py`: early return on an empty
transaction list; both library stages run under try/except blocks that turn
any raised exception into an empty frame; empty intermediate frames return
early; retained rules are filtered by `lift >= min_lift` and stably sorted by
descending lift (`sort_values(by=..., ascending=False)` on the single column). -/
def run_apriori_analysis (transactions : List (List String))
    (min_support min_confidence min_lift : ℚ) : List Rule :=
  if transactions = [] then []
  else
    match aprioriExc transactions min_support with
    | Except.error _ => []
    | Except.ok freq =>
      if freq = [] then []
      else
        match associationRulesExc (encodeTransactions transactions) freq min_confidence with
        | Except.error _ => []
        | Except.ok rules =>
          if rules = [] then []
          else
            List.insertionSort (fun a b => b.lift ≤ a.lift)
              (rules.filter fun r => decide (min_lift ≤ r.lift))

/-- Display column `antecedents_str` added at the end of the pipeline
(`lambda x: ", ".join(list(x))`). -/
def antecedentsStr (r : Rule) : String := String.intercalate ", " r.antecedents

/-- Display column `consequents_str` added at the end of the pipeline. -/
def consequentsStr (r : Rule) : String := String.intercalate ", " r.consequents

/-- Modelled from the spec: the ordering the specification claims for the
output rows — descending lift, ties by descending confidence, then descending
support, then the canonical string form of (antecedent, consequent).  Stated
from the words of the spec so it can be compared with the sort the code
performs. -/
def specTieBreakLE (a b : Rule) : Bool :=
  decide (b.lift < a.lift) ||
    (decide (b.lift = a.lift) &&
      (decide (b.confidence < a.confidence) ||
        (decide (b.confidence = a.confidence) &&
          (decide (b.support < a.support) ||
            (decide (b.support = a.support) &&
              (strLTb (antecedentsStr a) (antecedentsStr b) ||
                (decide (antecedentsStr a = antecedentsStr b) &&
                  !(strLTb (consequentsStr b) (consequentsStr a)))))))))

/-- A list is sorted for a boolean comparison when every adjacent pair is. -/
def adjacentlySortedBy (f : Rule → Rule → Bool) : List Rule → Bool
  | [] => true
  | [_] => true
  | a :: b :: l => f a b && adjacentlySortedBy f (b :: l)

/-! ### Support counting -/

theorem supportCount_mono (ts : List (Finset String)) {s t : Finset String}
    (h : s ⊆ t) : supportCount ts t ≤ supportCount ts s := by
  unfold supportCount
  rw [← List.countP_eq_length_filter, ← List.countP_eq_length_filter]
  refine List.countP_mono_left fun tr _ htr => ?_
  simp only [decide_eq_true_eq] at htr ⊢
  exact h.trans htr

theorem supportCount_le_length (ts : List (Finset String)) (s : Finset String) :
    supportCount ts s ≤ ts.length :=
  List.length_filter_le _ _

theorem supportFrac_nonneg (ts : List (Finset String)) (s : Finset String) :
    0 ≤ supportFrac ts s := by
  unfold supportFrac
  positivity

theorem supportFrac_le_one (ts : List (Finset String)) (s : Finset String) :
    supportFrac ts s ≤ 1 := by
  unfold supportFrac
  rcases Nat.eq_zero_or_pos ts.length with h0 | h0
  · simp [h0]
  · rw [div_le_one (by exact_mod_cast h0)]
    exact_mod_cast supportCount_le_length ts s

theorem supportFrac_mono (ts : List (Finset String)) {s t : Finset String}
    (h : s ⊆ t) : supportFrac ts t ≤ supportFrac ts s := by
  unfold supportFrac
  exact div_le_div_of_nonneg_right (by exact_mod_cast supportCount_mono ts h)
    (by positivity)

theorem exists_transaction_of_supportFrac_pos {ts : List (Finset String)}
    {s : Finset String} (h : 0 < supportFrac ts s) : ∃ t ∈ ts, s ⊆ t := by
  unfold supportFrac at h
  rcases Nat.eq_zero_or_pos (supportCount ts s) with h0 | h0
  · rw [h0] at h
    simp at h
  · unfold supportCount at h0
    obtain ⟨t, ht⟩ := List.exists_mem_of_length_pos h0
    rw [List.mem_filter, decide_eq_true_eq] at ht
    exact ⟨t, ht.1, ht.2⟩

/-! ### Characterization of the level-wise search -/

theorem toFinset_subset_toFinset {l₁ l₂ : List String} (h : l₁.Sublist l₂) :
    l₁.toFinset ⊆ l₂.toFinset := by
  intro a ha
  rw [List.mem_toFinset] at ha ⊢
  exact h.subset ha

/-- A sublist of the vocabulary is in level `k + 1` exactly when it has size
`k + 1` and meets the support threshold: the downward-closure pruning never
discards a supported candidate (anti-monotonicity). -/
theorem mem_freqLevel {ts : List (Finset String)} {minSupport : ℚ}
    {vocab : List String} : ∀ {k : ℕ} {c : List String},
    c ∈ freqLevel ts minSupport vocab (k + 1) ↔
      c.Sublist vocab ∧ c.length = k + 1 ∧ minSupport ≤ supportFrac ts c.toFinset := by
  intro k
  induction k with
  | zero =>
    intro c
    unfold freqLevel
    rw [List.mem_filter, List.mem_sublistsLen]
    constructor
    · rintro ⟨⟨hsub, hlen⟩, hp⟩
      rw [Bool.and_eq_true, decide_eq_true_eq] at hp
      exact ⟨hsub, hlen, hp.2⟩
    · rintro ⟨hsub, hlen, hfrac⟩
      refine ⟨⟨hsub, hlen⟩, ?_⟩
      rw [Bool.and_eq_true, decide_eq_true_eq]
      refine ⟨?_, hfrac⟩
      rw [List.all_eq_true]
      intro x hx
      rw [decide_eq_true_eq]
      have hlen0 : (c.erase x).length = 0 := by
        rw [List.length_erase_of_mem hx, hlen]
      rw [List.length_eq_zero] at hlen0
      rw [hlen0]
      unfold freqLevel
      exact List.mem_singleton.2 rfl
  | succ k ih =>
    intro c
    unfold freqLevel
    rw [List.mem_filter, List.mem_sublistsLen]
    constructor
    · rintro ⟨⟨hsub, hlen⟩, hp⟩
      rw [Bool.and_eq_true, decide_eq_true_eq] at hp
      exact ⟨hsub, hlen, hp.2⟩
    · rintro ⟨hsub, hlen, hfrac⟩
      refine ⟨⟨hsub, hlen⟩, ?_⟩
      rw [Bool.and_eq_true, decide_eq_true_eq]
      refine ⟨?_, hfrac⟩
      rw [List.all_eq_true]
      intro x hx
      rw [decide_eq_true_eq, ih]
      refine ⟨(List.erase_sublist x c).trans hsub, ?_, ?_⟩
      · rw [List.length_erase_of_mem hx, hlen]
        omega
      · exact le_trans hfrac
          (supportFrac_mono ts (toFinset_subset_toFinset (List.erase_sublist x c)))

/-- The pruning condition is redundant for supported candidates: each level is
just the support filter over all size-`(k + 1)` sublists of the vocabulary. -/
theorem freqLevel_eq_filter (ts : List (Finset String)) (minSupport : ℚ)
    (vocab : List String) (k : ℕ) :
    freqLevel ts minSupport vocab (k + 1) =
      (List.sublistsLen (k + 1) vocab).filter
        (fun c => decide (minSupport ≤ supportFrac ts c.toFinset)) := by
  conv_lhs => unfold freqLevel
  refine List.filter_congr fun c hc => ?_
  rw [List.mem_sublistsLen] at hc
  by_cases hfrac : minSupport ≤ supportFrac ts c.toFinset
  · have hmem : c ∈ freqLevel ts minSupport vocab (k + 1) :=
      mem_freqLevel.2 ⟨hc.1, hc.2, hfrac⟩
    unfold freqLevel at hmem
    rw [List.mem_filter] at hmem
    rw [hmem.2]
    simp [hfrac]
  · simp [hfrac]

/-! ### Vocabulary facts -/

theorem nodup_vocabList (tx : List (List String)) : (vocabList tx).Nodup := by
  unfold vocabList
  exact ((List.perm_insertionSort _ _).nodup_iff).2 (List.nodup_dedup _)

theorem mem_vocabList {tx : List (List String)} {x : String} :
    x ∈ vocabList tx ↔ ∃ l ∈ tx, x ∈ l := by
  unfold vocabList
  rw [(List.perm_insertionSort _ _).mem_iff, List.mem_dedup, List.mem_flatMap]
  simp only [id_eq]

theorem encode_mem_subset_vocab {tx : List (List String)} {t : Finset String}
    (ht : t ∈ encodeTransactions tx) : t ⊆ (vocabList tx).toFinset := by
  unfold encodeTransactions at ht
  rw [List.mem_map] at ht
  obtain ⟨l, hl, rfl⟩ := ht
  intro a ha
  rw [List.mem_toFinset] at ha ⊢
  exact mem_vocabList.2 ⟨l, hl, ha⟩

theorem subset_vocab_of_frac_pos {tx : List (List String)} {s : Finset String}
    (h : 0 < supportFrac (encodeTransactions tx) s) :
    s ⊆ (vocabList tx).toFinset := by
  obtain ⟨t, ht, hst⟩ := exists_transaction_of_supportFrac_pos h
  exact hst.trans (encode_mem_subset_vocab ht)

/-- Canonical sorted list representative of a set of items drawn from the
vocabulary (proof-side construction). -/
def canonList (tx : List (List String)) (s : Finset String) : List String :=
  (vocabList tx).filter (fun x => decide (x ∈ s))

theorem canonList_sublist (tx : List (List String)) (s : Finset String) :
    (canonList tx s).Sublist (vocabList tx) :=
  List.filter_sublist _

theorem canonList_nodup (tx : List (List String)) (s : Finset String) :
    (canonList tx s).Nodup :=
  (nodup_vocabList tx).filter _

theorem canonList_toFinset {tx : List (List String)} {s : Finset String}
    (h : s ⊆ (vocabList tx).toFinset) : (canonList tx s).toFinset = s := by
  unfold canonList
  rw [List.toFinset_filter]
  ext a
  rw [Finset.mem_filter]
  simp only [decide_eq_true_eq]
  exact ⟨fun hx => hx.2, fun ha => ⟨h ha, ha⟩⟩

theorem canonList_length {tx : List (List String)} {s : Finset String}
    (h : s ⊆ (vocabList tx).toFinset) : (canonList tx s).length = s.card := by
  have h2 := List.toFinset_card_of_nodup (canonList_nodup tx s)
  rw [canonList_toFinset h] at h2
  exact h2.symm

theorem ne_nil_of_toFinset_nonempty {l : List String}
    (h : l.toFinset.Nonempty) : l ≠ [] := by
  intro he
  rw [he] at h
  simp at h

/-! ### Characterization of the frequent-itemset frame -/

theorem mem_frequentItemsets {tx : List (List String)} {ms : ℚ}
    {p : List String × ℚ} :
    p ∈ frequentItemsets tx ms ↔
      p.1.Sublist (vocabList tx) ∧ p.1 ≠ [] ∧
        ms ≤ supportFrac (encodeTransactions tx) p.1.toFinset ∧
        p.2 = supportFrac (encodeTransactions tx) p.1.toFinset := by
  unfold frequentItemsets
  rw [List.mem_flatMap]
  constructor
  · rintro ⟨k, hk, hp⟩
    rw [List.mem_map] at hp
    obtain ⟨c, hc, rfl⟩ := hp
    rw [mem_freqLevel] at hc
    refine ⟨hc.1, ?_, hc.2.2, rfl⟩
    intro he
    have hce : c = [] := he
    rw [hce] at hc
    simp at hc
  · rintro ⟨hsub, hne, hfrac, hp2⟩
    have h1 : 1 ≤ p.1.length := List.length_pos.2 hne
    have h2 : p.1.length ≤ (vocabList tx).length := hsub.length_le
    refine ⟨p.1.length - 1, ?_, ?_⟩
    · rw [List.mem_range]
      omega
    · rw [List.mem_map]
      refine ⟨p.1, ?_, ?_⟩
      · rw [mem_freqLevel]
        exact ⟨hsub, by omega, hfrac⟩
      · rw [← hp2]

/-! ### Characterization of rule generation -/

theorem mem_rulesFrom {ts : List (Finset String)} {u : List String} {mc : ℚ}
    {r : Rule} :
    r ∈ rulesFrom ts u mc ↔
      ∃ ant, ant.Sublist u ∧ ant ≠ [] ∧ ant.length < u.length ∧
        mc ≤ supportFrac ts u.toFinset / supportFrac ts ant.toFinset ∧
        r = ⟨ant, u.filter (fun x => decide (x ∉ ant)),
             supportFrac ts u.toFinset,
             supportFrac ts u.toFinset / supportFrac ts ant.toFinset,
             supportFrac ts u.toFinset / supportFrac ts ant.toFinset /
               supportFrac ts (u.filter (fun x => decide (x ∉ ant))).toFinset⟩ := by
  unfold rulesFrom
  rw [List.mem_flatMap]
  constructor
  · rintro ⟨i, hi, hr⟩
    rw [List.mem_range] at hi
    rw [List.mem_filterMap] at hr
    obtain ⟨ant, hant, heq⟩ := hr
    rw [List.mem_sublistsLen] at hant
    by_cases hmc : mc ≤ supportFrac ts u.toFinset / supportFrac ts ant.toFinset
    · rw [if_pos hmc, Option.some_inj] at heq
      refine ⟨ant, hant.1, ?_, ?_, hmc, heq.symm⟩
      · rw [← List.length_pos, hant.2]
        omega
      · rw [hant.2]
        omega
    · rw [if_neg hmc] at heq
      exact absurd heq (Option.noConfusion)
  · rintro ⟨ant, hsub, hne, hlen, hmc, hr⟩
    have hpos : 0 < ant.length := List.length_pos.2 hne
    refine ⟨u.length - 1 - ant.length, ?_, ?_⟩
    · rw [List.mem_range]
      omega
    · rw [List.mem_filterMap]
      refine ⟨ant, ?_, ?_⟩
      · rw [List.mem_sublistsLen]
        exact ⟨hsub, by omega⟩
      · rw [if_pos hmc, hr]

/-! ### Pipeline unfolding -/

/-- The rule rows `association_rules` produces inside the pipeline, before the
lift filter and the sort. -/
def pipelineRules (tx : List (List String)) (ms mc : ℚ) : List Rule :=
  (frequentItemsets tx ms).flatMap fun p => rulesFrom (encodeTransactions tx) p.1 mc

theorem run_empty_of_nonpos (tx : List (List String)) (ms mc ml : ℚ)
    (hms : ms ≤ 0) : run_apriori_analysis tx ms mc ml = [] := by
  unfold run_apriori_analysis aprioriExc
  by_cases htx : tx = []
  · simp [htx]
  · simp [htx, hms]

theorem run_eq (tx : List (List String)) (ms mc ml : ℚ) (hms : 0 < ms) :
    run_apriori_analysis tx ms mc ml =
      List.insertionSort (fun a b => b.lift ≤ a.lift)
        ((pipelineRules tx ms mc).filter (fun r => decide (ml ≤ r.lift))) := by
  unfold run_apriori_analysis aprioriExc associationRulesExc pipelineRules
  by_cases htx : tx = []
  · subst htx
    rw [if_pos rfl]
    rfl
  · rw [if_neg htx, if_neg (not_le.2 hms)]
    by_cases hfreq : frequentItemsets tx ms = []
    · simp only [hfreq]
      rfl
    · simp only [if_neg hfreq]
      by_cases hrules : (frequentItemsets tx ms).flatMap
          (fun p => rulesFrom (encodeTransactions tx) p.1 mc) = []
      · simp only [hrules]
        rfl
      · simp only [if_neg hrules]

theorem mem_run {tx : List (List String)} {ms mc ml : ℚ} {r : Rule} :
    r ∈ run_apriori_analysis tx ms mc ml ↔
      0 < ms ∧ ml ≤ r.lift ∧ r ∈ pipelineRules tx ms mc := by
  by_cases hms : 0 < ms
  · rw [run_eq tx ms mc ml hms, (List.perm_insertionSort _ _).mem_iff,
      List.mem_filter, decide_eq_true_eq]
    exact ⟨fun h => ⟨hms, h.2, h.1⟩, fun h => ⟨h.2.2, h.2.1⟩⟩
  · rw [run_empty_of_nonpos tx ms mc ml (not_lt.1 hms)]
    simp [hms]

theorem union_filter_not_mem_toFinset {u ant : List String} (hsub : ant.Sublist u) :
    ant.toFinset ∪ (u.filter (fun x => decide (x ∉ ant))).toFinset = u.toFinset := by
  ext a
  simp only [Finset.mem_union, List.mem_toFinset, List.mem_filter, decide_eq_true_eq]
  constructor
  · rintro (ha | ha)
    · exact hsub.subset ha
    · exact ha.1
  · intro ha
    by_cases hant : a ∈ ant
    · exact Or.inl hant
    · exact Or.inr ⟨ha, hant⟩

/-! ### Claim theorems -/

/-- C3.  For a non-empty transaction collection and `min_support` in `(0, 1]`,
the frequent-itemset stage returns exactly the non-empty itemsets whose
support ratio (exact containment count over the total transaction count `N`)
meets `min_support` inclusively; the ratio's denominator is the full `N`,
while transactions that encode to the empty set contribute to no non-empty
itemset's count. -/
theorem spec_c3_frequent_stage_exact (tx : List (List String)) (ms : ℚ)
    (hms : 0 < ms) (htx : tx ≠ []) (s : Finset String) :
    ((∃ p ∈ frequentItemsets tx ms,
        p.1.toFinset = s ∧ p.2 = supportFrac (encodeTransactions tx) s) ↔
      (s.Nonempty ∧ ms ≤ supportFrac (encodeTransactions tx) s)) ∧
    supportFrac (encodeTransactions tx) s =
      (supportCount (encodeTransactions tx) s : ℚ) / (tx.length : ℚ) ∧
    (s.Nonempty →
      supportCount (encodeTransactions tx) s =
        supportCount ((encodeTransactions tx).filter (fun t => decide (t ≠ ∅))) s) := by
  refine ⟨?_, ?_, ?_⟩
  · constructor
    · rintro ⟨p, hp, hps, hpfrac⟩
      rw [mem_frequentItemsets] at hp
      refine ⟨?_, ?_⟩
      · rw [← hps]
        exact (List.toFinset_nonempty_iff _).2 hp.2.1
      · rw [← hps]
        exact hp.2.2.1
    · rintro ⟨hs, hfrac⟩
      have hpos : 0 < supportFrac (encodeTransactions tx) s := lt_of_lt_of_le hms hfrac
      have hsv : s ⊆ (vocabList tx).toFinset := subset_vocab_of_frac_pos hpos
      refine ⟨(canonList tx s, supportFrac (encodeTransactions tx) s), ?_, ?_, rfl⟩
      · rw [mem_frequentItemsets]
        refine ⟨canonList_sublist tx s, ?_, ?_, ?_⟩
        · exact ne_nil_of_toFinset_nonempty (by rw [canonList_toFinset hsv]; exact hs)
        · rw [canonList_toFinset hsv]
          exact hfrac
        · rw [canonList_toFinset hsv]
      · exact canonList_toFinset hsv
  · unfold supportFrac encodeTransactions
    rw [List.length_map]
  · intro hs
    unfold supportCount
    rw [List.filter_filter]
    refine congrArg List.length (List.filter_congr fun t ht => ?_)
    by_cases hsub : s ⊆ t
    · have htne : t ≠ ∅ := by
        intro he
        rw [he, Finset.subset_empty] at hsub
        rw [hsub] at hs
        exact Finset.not_nonempty_empty hs
      simp [hsub, htne]
    · simp [hsub]

/-- C5.  Every rule the pipeline outputs has confidence in `(0, 1]` and
non-negative lift, its support is the support ratio of the union of
antecedent and consequent, its confidence is that support divided by the
antecedent's support ratio, and its lift is the confidence divided by the
consequent's support ratio. -/
theorem spec_c5_rule_metric_bounds (tx : List (List String)) (ms mc ml : ℚ)
    (r : Rule) (hr : r ∈ run_apriori_analysis tx ms mc ml) :
    0 < r.confidence ∧ r.confidence ≤ 1 ∧ 0 ≤ r.lift ∧
      r.support = supportFrac (encodeTransactions tx)
        (r.antecedents.toFinset ∪ r.consequents.toFinset) ∧
      r.confidence =
        r.support / supportFrac (encodeTransactions tx) r.antecedents.toFinset ∧
      r.lift =
        r.confidence / supportFrac (encodeTransactions tx) r.consequents.toFinset := by
  rw [mem_run] at hr
  obtain ⟨hms, hml, hr⟩ := hr
  unfold pipelineRules at hr
  rw [List.mem_flatMap] at hr
  obtain ⟨p, hp, hr⟩ := hr
  rw [mem_frequentItemsets] at hp
  rw [mem_rulesFrom] at hr
  obtain ⟨ant, hsub, hne, hlen, hmc, hreq⟩ := hr
  subst hreq
  have hfu : 0 < supportFrac (encodeTransactions tx) p.1.toFinset :=
    lt_of_lt_of_le hms hp.2.2.1
  have hfa : 0 < supportFrac (encodeTransactions tx) ant.toFinset :=
    lt_of_lt_of_le hfu (supportFrac_mono _ (toFinset_subset_toFinset hsub))
  have hfc : 0 < supportFrac (encodeTransactions tx)
      (p.1.filter (fun x => decide (x ∉ ant))).toFinset :=
    lt_of_lt_of_le hfu
      (supportFrac_mono _ (toFinset_subset_toFinset (List.filter_sublist _)))
  refine ⟨div_pos hfu hfa, ?_, ?_, ?_, rfl, rfl⟩
  · rw [div_le_one hfa]
    exact supportFrac_mono _ (toFinset_subset_toFinset hsub)
  · exact le_of_lt (div_pos (div_pos hfu hfa) hfc)
  · rw [union_filter_not_mem_toFinset hsub]

/-- C6.  Support is anti-monotone: a subset is supported at least as often as
any of its supersets; consequently every non-empty subset of an itemset in the
frequent-itemset frame also appears in that frame. -/
theorem spec_c6_anti_monotonicity :
    (∀ (ts : List (Finset String)) (S T : Finset String), S ⊆ T →
        supportFrac ts T ≤ supportFrac ts S) ∧
    (∀ (tx : List (List String)) (ms : ℚ) (S T : Finset String),
        S ⊆ T → S.Nonempty →
        (∃ p ∈ frequentItemsets tx ms, p.1.toFinset = T) →
        (∃ q ∈ frequentItemsets tx ms, q.1.toFinset = S)) := by
  constructor
  · exact fun ts S T h => supportFrac_mono ts h
  · rintro tx ms S T hST hS ⟨p, hp, hpT⟩
    rw [mem_frequentItemsets] at hp
    have hTv : T ⊆ (vocabList tx).toFinset := by
      rw [← hpT]
      exact toFinset_subset_toFinset hp.1
    have hSv : S ⊆ (vocabList tx).toFinset := hST.trans hTv
    have hfrac : ms ≤ supportFrac (encodeTransactions tx) S := by
      refine le_trans ?_ (supportFrac_mono _ hST)
      rw [← hpT]
      exact hp.2.2.1
    refine ⟨(canonList tx S, supportFrac (encodeTransactions tx) S), ?_,
      canonList_toFinset hSv⟩
    rw [mem_frequentItemsets]
    refine ⟨canonList_sublist tx S, ?_, ?_, ?_⟩
    · exact ne_nil_of_toFinset_nonempty (by rw [canonList_toFinset hSv]; exact hS)
    · rw [canonList_toFinset hSv]
      exact hfrac
    · rw [canonList_toFinset hSv]

/-- C4.  For a frequent itemset split into a non-empty antecedent and its
non-empty complement consequent, the corresponding rule appears in the
pipeline's output exactly when its confidence meets `min_confidence` and its
lift meets `min_lift` (both inclusive); an itemset of size one generates no
rules at all. -/
theorem spec_c4_rule_retention (tx : List (List String)) (ms mc ml : ℚ)
    (A C : Finset String) (hms : 0 < ms) (hA : A.Nonempty) (hC : C.Nonempty)
    (hd : Disjoint A C)
    (hfreq : ms ≤ supportFrac (encodeTransactions tx) (A ∪ C)) :
    ((∃ r ∈ run_apriori_analysis tx ms mc ml,
        r.antecedents.toFinset = A ∧ r.consequents.toFinset = C) ↔
      (mc ≤ supportFrac (encodeTransactions tx) (A ∪ C) /
              supportFrac (encodeTransactions tx) A ∧
        ml ≤ supportFrac (encodeTransactions tx) (A ∪ C) /
              supportFrac (encodeTransactions tx) A /
              supportFrac (encodeTransactions tx) C)) ∧
    (∀ x : String, rulesFrom (encodeTransactions tx) [x] mc = []) := by
  constructor
  · constructor
    · rintro ⟨r, hr, hrA, hrC⟩
      rw [mem_run] at hr
      obtain ⟨_, hml, hr⟩ := hr
      unfold pipelineRules at hr
      rw [List.mem_flatMap] at hr
      obtain ⟨p, hp, hr⟩ := hr
      rw [mem_rulesFrom] at hr
      obtain ⟨ant, hsub, hne, hlen, hmc, hreq⟩ := hr
      subst hreq
      dsimp only at hrA hrC hml
      have huAC : p.1.toFinset = A ∪ C := by
        rw [← hrA, ← hrC]
        exact (union_filter_not_mem_toFinset hsub).symm
      rw [huAC, hrA] at hmc
      rw [huAC, hrA, hrC] at hml
      exact ⟨hmc, hml⟩
    · rintro ⟨hmc, hml⟩
      have hACv : A ∪ C ⊆ (vocabList tx).toFinset :=
        subset_vocab_of_frac_pos (lt_of_lt_of_le hms hfreq)
      have hAv : A ⊆ A ∪ C := Finset.subset_union_left
      have hu : (canonList tx (A ∪ C)).toFinset = A ∪ C := canonList_toFinset hACv
      have hant : ((canonList tx (A ∪ C)).filter
          (fun x => decide (x ∈ A))).toFinset = A := by
        rw [List.toFinset_filter, hu]
        ext a
        rw [Finset.mem_filter]
        simp only [decide_eq_true_eq]
        exact ⟨fun h => h.2, fun h => ⟨hAv h, h⟩⟩
      have hantsub : ((canonList tx (A ∪ C)).filter
          (fun x => decide (x ∈ A))).Sublist (canonList tx (A ∪ C)) :=
        List.filter_sublist _
      have hantlen : ((canonList tx (A ∪ C)).filter
          (fun x => decide (x ∈ A))).length = A.card := by
        have hnd : ((canonList tx (A ∪ C)).filter
            (fun x => decide (x ∈ A))).Nodup := (canonList_nodup tx _).filter _
        have := List.toFinset_card_of_nodup hnd
        rw [hant] at this
        exact this.symm
      have hcardlt : A.card < (A ∪ C).card := by
        refine Finset.card_lt_card ((Finset.ssubset_iff_of_subset hAv).2 ?_)
        obtain ⟨c, hc⟩ := hC
        exact ⟨c, Finset.mem_union_right A hc,
          Finset.disjoint_right.1 hd hc⟩
      have hcons : ((canonList tx (A ∪ C)).filter (fun x => decide (x ∉
          (canonList tx (A ∪ C)).filter (fun y => decide (y ∈ A))))).toFinset
          = C := by
        ext a
        simp only [List.mem_toFinset, List.mem_filter, decide_eq_true_eq]
        constructor
        · rintro ⟨hau, hna⟩
          have haAC : a ∈ A ∪ C := by
            rw [← hu]
            exact List.mem_toFinset.2 hau
          rcases Finset.mem_union.1 haAC with haA | haC
          · exact absurd ⟨hau, haA⟩ hna
          · exact haC
        · intro haC
          have hau : a ∈ canonList tx (A ∪ C) := by
            rw [← List.mem_toFinset, hu]
            exact Finset.mem_union_right A haC
          refine ⟨hau, ?_⟩
          rintro ⟨-, haA⟩
          exact Finset.disjoint_right.1 hd haC haA
      refine ⟨⟨(canonList tx (A ∪ C)).filter (fun x => decide (x ∈ A)),
        (canonList tx (A ∪ C)).filter (fun x => decide (x ∉
          (canonList tx (A ∪ C)).filter (fun y => decide (y ∈ A)))),
        supportFrac (encodeTransactions tx) (canonList tx (A ∪ C)).toFinset,
        supportFrac (encodeTransactions tx) (canonList tx (A ∪ C)).toFinset /
          supportFrac (encodeTransactions tx) ((canonList tx (A ∪ C)).filter
            (fun x => decide (x ∈ A))).toFinset,
        supportFrac (encodeTransactions tx) (canonList tx (A ∪ C)).toFinset /
          supportFrac (encodeTransactions tx) ((canonList tx (A ∪ C)).filter
            (fun x => decide (x ∈ A))).toFinset /
          supportFrac (encodeTransactions tx) ((canonList tx (A ∪ C)).filter
            (fun x => decide (x ∉ (canonList tx (A ∪ C)).filter
              (fun y => decide (y ∈ A))))).toFinset⟩, ?_, ?_, ?_⟩
      · rw [mem_run]
        refine ⟨hms, ?_, ?_⟩
        · dsimp only
          rw [hu, hant, hcons]
          exact hml
        · unfold pipelineRules
          rw [List.mem_flatMap]
          refine ⟨(canonList tx (A ∪ C),
            supportFrac (encodeTransactions tx) (canonList tx (A ∪ C)).toFinset),
            ?_, ?_⟩
          · rw [mem_frequentItemsets]
            refine ⟨canonList_sublist tx _, ?_, ?_, rfl⟩
            · refine ne_nil_of_toFinset_nonempty ?_
              rw [hu]
              obtain ⟨a, ha⟩ := hA
              exact ⟨a, Finset.mem_union_left C ha⟩
            · rw [hu]
              exact hfreq
          · rw [mem_rulesFrom]
            refine ⟨(canonList tx (A ∪ C)).filter (fun x => decide (x ∈ A)),
              hantsub, ?_, ?_, ?_, rfl⟩
            · refine ne_nil_of_toFinset_nonempty ?_
              rw [hant]
              exact hA
            · have hulen : (canonList tx (A ∪ C)).length = (A ∪ C).card :=
                canonList_length hACv
              rw [hantlen, hulen]
              exact hcardlt
            · rw [hu, hant]
              exact hmc
      · dsimp only
        rw [hant]
      · dsimp only
        rw [hcons]
  · intro x
    rfl

/-! ### Monotonicity in the thresholds -/

theorem sublist_flatMap_of_sublist {α β : Type} {l₁ l₂ : List α}
    (f : α → List β) (h : l₁.Sublist l₂) :
    (l₁.flatMap f).Sublist (l₂.flatMap f) := by
  induction h with
  | slnil => simp
  | cons a h ih =>
    rw [List.flatMap_cons]
    exact ih.trans (List.sublist_append_right _ _)
  | cons₂ a h ih =>
    rw [List.flatMap_cons, List.flatMap_cons]
    exact ih.append_left _

theorem flatMap_sublist_pointwise {α β : Type} {l : List α} {f g : α → List β}
    (h : ∀ a ∈ l, (f a).Sublist (g a)) :
    (l.flatMap f).Sublist (l.flatMap g) := by
  induction l with
  | nil => simp
  | cons a l ih =>
    rw [List.flatMap_cons, List.flatMap_cons]
    exact (h a (List.mem_cons_self a l)).append
      (ih fun b hb => h b (List.mem_cons_of_mem a hb))

theorem filterMap_sublist_pointwise {α β : Type} {l : List α}
    {f g : α → Option β} (h : ∀ a ∈ l, ∀ b, f a = some b → g a = some b) :
    (l.filterMap f).Sublist (l.filterMap g) := by
  induction l with
  | nil => simp
  | cons a l ih =>
    rw [List.filterMap_cons, List.filterMap_cons]
    have ih2 := ih fun x hx b hb => h x (List.mem_cons_of_mem a hx) b hb
    cases hfa : f a with
    | none =>
      cases hga : g a with
      | none => exact ih2
      | some b => exact ih2.trans (List.sublist_cons_self b _)
    | some b =>
      rw [h a (List.mem_cons_self a l) b hfa]
      exact ih2.cons₂ b

theorem freqLevel_sublist_of_le {ts : List (Finset String)}
    {vocab : List String} {ms ms' : ℚ} (h : ms ≤ ms') (k : ℕ) :
    (freqLevel ts ms' vocab (k + 1)).Sublist (freqLevel ts ms vocab (k + 1)) := by
  rw [freqLevel_eq_filter, freqLevel_eq_filter]
  refine List.monotone_filter_right _ fun c hc => ?_
  rw [decide_eq_true_eq] at hc ⊢
  exact le_trans h hc

theorem frequentItemsets_sublist_of_le {tx : List (List String)} {ms ms' : ℚ}
    (h : ms ≤ ms') :
    (frequentItemsets tx ms').Sublist (frequentItemsets tx ms) := by
  unfold frequentItemsets
  exact flatMap_sublist_pointwise fun k hk => (freqLevel_sublist_of_le h k).map _

theorem rulesFrom_sublist_of_le {ts : List (Finset String)} {u : List String}
    {mc mc' : ℚ} (h : mc ≤ mc') :
    (rulesFrom ts u mc').Sublist (rulesFrom ts u mc) := by
  unfold rulesFrom
  refine flatMap_sublist_pointwise fun i hi => ?_
  refine filterMap_sublist_pointwise fun ant ha b hb => ?_
  by_cases hc : mc' ≤ supportFrac ts u.toFinset / supportFrac ts ant.toFinset
  · rw [if_pos hc] at hb
    rw [if_pos (le_trans h hc)]
    exact hb
  · rw [if_neg hc] at hb
    exact absurd hb Option.noConfusion

theorem pipelineRules_sublist_ms {tx : List (List String)} {mc : ℚ}
    {ms ms' : ℚ} (h : ms ≤ ms') :
    (pipelineRules tx ms' mc).Sublist (pipelineRules tx ms mc) :=
  sublist_flatMap_of_sublist _ (frequentItemsets_sublist_of_le h)

theorem pipelineRules_sublist_mc {tx : List (List String)} {ms : ℚ}
    {mc mc' : ℚ} (h : mc ≤ mc') :
    (pipelineRules tx ms mc').Sublist (pipelineRules tx ms mc) := by
  unfold pipelineRules
  exact flatMap_sublist_pointwise fun p hp => rulesFrom_sublist_of_le h

/-- C7.  With all other parameters fixed, raising `min_support` never
increases the number of frequent itemsets or output rules, and raising
`min_confidence` or `min_lift` never increases the number of output rules. -/
theorem spec_c7_threshold_monotonic (tx : List (List String))
    (ms ms' mc mc' ml ml' : ℚ) :
    (0 < ms → ms ≤ ms' →
      (frequentItemsets tx ms').length ≤ (frequentItemsets tx ms).length ∧
      (run_apriori_analysis tx ms' mc ml).length ≤
        (run_apriori_analysis tx ms mc ml).length) ∧
    (mc ≤ mc' →
      (run_apriori_analysis tx ms mc' ml).length ≤
        (run_apriori_analysis tx ms mc ml).length) ∧
    (ml ≤ ml' →
      (run_apriori_analysis tx ms mc ml').length ≤
        (run_apriori_analysis tx ms mc ml).length) := by
  refine ⟨fun hms hle => ⟨?_, ?_⟩, fun hle => ?_, fun hle => ?_⟩
  · exact (frequentItemsets_sublist_of_le hle).length_le
  · rw [run_eq tx ms mc ml hms, run_eq tx ms' mc ml (lt_of_lt_of_le hms hle),
      List.length_insertionSort, List.length_insertionSort]
    exact ((pipelineRules_sublist_ms hle).filter _).length_le
  · by_cases hms : 0 < ms
    · rw [run_eq tx ms mc ml hms, run_eq tx ms mc' ml hms,
        List.length_insertionSort, List.length_insertionSort]
      exact ((pipelineRules_sublist_mc hle).filter _).length_le
    · rw [run_empty_of_nonpos tx ms mc ml (not_lt.1 hms),
        run_empty_of_nonpos tx ms mc' ml (not_lt.1 hms)]
  · by_cases hms : 0 < ms
    · rw [run_eq tx ms mc ml hms, run_eq tx ms mc ml' hms,
        List.length_insertionSort, List.length_insertionSort]
      refine (List.monotone_filter_right _ fun r hr => ?_).length_le
      rw [decide_eq_true_eq] at hr ⊢
      exact le_trans hle hr
    · rw [run_empty_of_nonpos tx ms mc ml (not_lt.1 hms),
        run_empty_of_nonpos tx ms mc ml' (not_lt.1 hms)]

/-- C1 (amended).  The rule sequence the pipeline returns is sorted by
descending lift; the code applies no further tie-break between rules of equal
lift. -/
theorem spec_c1_sorted_by_lift (tx : List (List String)) (ms mc ml : ℚ) :
    List.Sorted (fun a b : Rule => b.lift ≤ a.lift)
      (run_apriori_analysis tx ms mc ml) := by
  by_cases hms : 0 < ms
  · rw [run_eq tx ms mc ml hms]
    haveI h1 : IsTotal Rule (fun a b => b.lift ≤ a.lift) :=
      ⟨fun a b => le_total b.lift a.lift⟩
    haveI h2 : IsTrans Rule (fun a b => b.lift ≤ a.lift) :=
      ⟨fun a b c hab hbc => le_trans hbc hab⟩
    exact List.sorted_insertionSort _ _
  · rw [run_empty_of_nonpos tx ms mc ml (not_lt.1 hms)]
    exact List.sorted_nil

section ConcreteEvaluation

attribute [local semireducible] Rat.mul Rat.inv Rat.add Rat.sub

/-- C1 (counterexample).  On the Scenario A transactions the output is not
sorted by the claimed composite order: two rules tie on lift while a
lower-confidence rule precedes a higher-confidence one. -/
theorem spec_c1_counterexample :
    adjacentlySortedBy specTieBreakLE
      (run_apriori_analysis [["A","B"],["A","B"],["A","C"],["A","B","C"]]
        (1/2) (1/10) 1) = false := by
  decide

/-- C2 (amended).  A `min_support` outside `(0, 1]` never surfaces an error
to the caller: the pipeline returns the empty frame.  For `min_support > 1`
mining runs and retains nothing; for `min_support <= 0` the library raises and
the pipeline catches the exception, returning the same empty frame. -/
theorem spec_c2_invalid_threshold_empty (tx : List (List String))
    (ms mc ml : ℚ) (h : ms ≤ 0 ∨ 1 < ms) :
    run_apriori_analysis tx ms mc ml = [] := by
  rcases h with h | h
  · exact run_empty_of_nonpos tx ms mc ml h
  · rw [run_eq tx ms mc ml (lt_trans one_pos h)]
    have hfreq : frequentItemsets tx ms = [] := by
      rw [List.eq_nil_iff_forall_not_mem]
      intro p hp
      rw [mem_frequentItemsets] at hp
      exact absurd (le_trans hp.2.2.1 (supportFrac_le_one _ _)) (not_le.2 h)
    unfold pipelineRules
    rw [hfreq]
    rfl

/-- C2 (counterexample).  With `min_support = 3/2` (out of range) the
`apriori` stage runs without raising and the pipeline returns the empty
frame — the very output a genuinely rule-free valid run produces. -/
theorem spec_c2_counterexample :
    (aprioriExc [["A"], ["A", "B"]] (3/2)).isOk = true ∧
      run_apriori_analysis [["A"], ["A", "B"]] (3/2) (1/10) 1 =
        run_apriori_analysis [["A"], ["B"]] (1/2) (1/2) 1 := by
  constructor
  · decide
  · decide

/-- C9.  An empty transaction collection yields empty results without any
error, and zero frequent itemsets or zero generated rules propagate as empty
outputs of the pipeline. -/
theorem spec_c9_empty_inputs (ms mc ml : ℚ) :
    run_apriori_analysis [] ms mc ml = [] ∧
    frequentItemsets [] ms = [] ∧
    (∀ tx : List (List String), frequentItemsets tx ms = [] →
      run_apriori_analysis tx ms mc ml = []) ∧
    (∀ tx : List (List String), pipelineRules tx ms mc = [] →
      run_apriori_analysis tx ms mc ml = []) := by
  refine ⟨rfl, rfl, ?_, ?_⟩
  · intro tx hf
    by_cases hms : 0 < ms
    · rw [run_eq tx ms mc ml hms]
      unfold pipelineRules
      rw [hf]
      rfl
    · exact run_empty_of_nonpos tx ms mc ml (not_lt.1 hms)
  · intro tx hp
    by_cases hms : 0 < ms
    · rw [run_eq tx ms mc ml hms, hp]
      rfl
    · exact run_empty_of_nonpos tx ms mc ml (not_lt.1 hms)

/-- C10.  An exception raised by either library stage is caught by the
pipeline and converted into the empty frame, indistinguishable from a run
that found no rules. -/
theorem spec_c10_failures_caught (tx : List (List String)) (ms mc ml : ℚ) :
    ((∃ e, aprioriExc tx ms = Except.error e) →
      run_apriori_analysis tx ms mc ml = []) ∧
    ((∃ e freq, aprioriExc tx ms = Except.ok freq ∧
        associationRulesExc (encodeTransactions tx) freq mc = Except.error e) →
      run_apriori_analysis tx ms mc ml = []) := by
  constructor
  · rintro ⟨e, he⟩
    unfold aprioriExc at he
    by_cases hms : ms ≤ 0
    · exact run_empty_of_nonpos tx ms mc ml hms
    · rw [if_neg hms] at he
      exact absurd he (fun h => Except.noConfusion h)
  · rintro ⟨e, freq, hok, herr⟩
    unfold aprioriExc at hok
    by_cases hms : ms ≤ 0
    · exact run_empty_of_nonpos tx ms mc ml hms
    · rw [if_neg hms] at hok
      have hfeq : freq = frequentItemsets tx ms := (Except.ok.inj hok).symm
      subst hfeq
      unfold associationRulesExc at herr
      by_cases hfe : frequentItemsets tx ms = []
      · rw [run_eq tx ms mc ml (not_le.1 hms)]
        unfold pipelineRules
        rw [hfe]
        rfl
      · rw [if_neg hfe] at herr
        exact absurd herr (fun h => Except.noConfusion h)

/-- C8.  Scenario A and B: on the four listed transactions with
`min_support = 1/2` the frequent itemsets include A, B, C, AB and AC with the
stated supports, BC (support 1/4) is excluded, and the pipeline emits the
rule A -> B with support 3/4, confidence 3/4 and lift 1. -/
theorem spec_c8_scenario :
    (["A"], (1 : ℚ)) ∈
        frequentItemsets [["A","B"],["A","B"],["A","C"],["A","B","C"]] (1/2) ∧
    (["B"], (3/4 : ℚ)) ∈
        frequentItemsets [["A","B"],["A","B"],["A","C"],["A","B","C"]] (1/2) ∧
    (["A","B"], (3/4 : ℚ)) ∈
        frequentItemsets [["A","B"],["A","B"],["A","C"],["A","B","C"]] (1/2) ∧
    (["C"], (1/2 : ℚ)) ∈
        frequentItemsets [["A","B"],["A","B"],["A","C"],["A","B","C"]] (1/2) ∧
    (["A","C"], (1/2 : ℚ)) ∈
        frequentItemsets [["A","B"],["A","B"],["A","C"],["A","B","C"]] (1/2) ∧
    (frequentItemsets [["A","B"],["A","B"],["A","C"],["A","B","C"]]
        (1/2)).filter (fun p => decide (p.1 = ["B","C"])) = [] ∧
    supportFrac (encodeTransactions [["A","B"],["A","B"],["A","C"],["A","B","C"]])
        {"B", "C"} = 1/4 ∧
    (⟨["A"], ["B"], 3/4, 3/4, 1⟩ : Rule) ∈
      run_apriori_analysis [["A","B"],["A","B"],["A","C"],["A","B","C"]]
        (1/2) (1/10) 1 := by
  refine ⟨?_, ?_, ?_, ?_, ?_, ?_, ?_, ?_⟩ <;> decide

/-- Witness for C2: at the out-of-range `min_support = 3/2` the pipeline
returns the empty frame. -/
theorem spec_c2_invalid_threshold_empty_witness :
    run_apriori_analysis [["A"], ["A", "B"]] (3/2) (1/10) 1 = [] :=
  spec_c2_invalid_threshold_empty [["A"], ["A", "B"]] (3/2) (1/10) 1
    (Or.inr (by decide))

/-- Witness for C3: on two transactions, one of which encodes to the empty
set, the itemset A (support 1/2) is produced by the frequent stage. -/
theorem spec_c3_frequent_stage_exact_witness :
    ∃ p ∈ frequentItemsets [["A"], []] (1/2),
      p.1.toFinset = ({"A"} : Finset String) ∧
        p.2 = supportFrac (encodeTransactions [["A"], []]) {"A"} :=
  (spec_c3_frequent_stage_exact [["A"], []] (1/2) (by decide) (by decide)
    {"A"}).1.2 ⟨by decide, by decide⟩

/-- Witness for C4: the split A / B of the frequent itemset AB passes both
inclusive filters, so the rule appears in the output. -/
theorem spec_c4_rule_retention_witness :
    ∃ r ∈ run_apriori_analysis [["A","B"],["A","B"],["A","C"],["A","B","C"]]
        (1/2) (1/10) 1,
      r.antecedents.toFinset = ({"A"} : Finset String) ∧
        r.consequents.toFinset = ({"B"} : Finset String) :=
  (spec_c4_rule_retention [["A","B"],["A","B"],["A","C"],["A","B","C"]]
    (1/2) (1/10) 1 {"A"} {"B"} (by decide) (by decide) (by decide) (by decide)
    (by decide)).1.2 ⟨by decide, by decide⟩

/-- Witness for C5: the output rule B -> A of Scenario A has positive
confidence. -/
theorem spec_c5_rule_metric_bounds_witness :
    0 < (⟨["B"], ["A"], 3/4, 1, 1⟩ : Rule).confidence :=
  (spec_c5_rule_metric_bounds [["A","B"],["A","B"],["A","C"],["A","B","C"]]
    (1/2) (1/10) 1 ⟨["B"], ["A"], 3/4, 1, 1⟩ (by decide)).1

/-- Witness for C6: support of AB never exceeds support of A, and the subset
B of the frequent itemset AB is itself in the frequent frame. -/
theorem spec_c6_anti_monotonicity_witness :
    supportFrac [{"A", "B"}, {"B"}] {"A", "B"} ≤
        supportFrac [{"A", "B"}, {"B"}] {"A"} ∧
      ∃ q ∈ frequentItemsets [["A", "B"], ["A", "B"]] (1/2),
        q.1.toFinset = ({"B"} : Finset String) :=
  ⟨spec_c6_anti_monotonicity.1 [{"A", "B"}, {"B"}] {"A"} {"A", "B"} (by decide),
   spec_c6_anti_monotonicity.2 [["A", "B"], ["A", "B"]] (1/2) {"B"} {"A", "B"}
     (by decide) (by decide) ⟨(["A", "B"], 1), by decide, by decide⟩⟩

/-- Witness for C7: raising each threshold on the Scenario A input does not
increase the respective result counts. -/
theorem spec_c7_threshold_monotonic_witness :
    ((frequentItemsets [["A","B"],["A","B"],["A","C"],["A","B","C"]]
          (3/4)).length ≤
        (frequentItemsets [["A","B"],["A","B"],["A","C"],["A","B","C"]]
          (1/2)).length ∧
      (run_apriori_analysis [["A","B"],["A","B"],["A","C"],["A","B","C"]]
          (3/4) (1/10) 1).length ≤
        (run_apriori_analysis [["A","B"],["A","B"],["A","C"],["A","B","C"]]
          (1/2) (1/10) 1).length) ∧
    (run_apriori_analysis [["A","B"],["A","B"],["A","C"],["A","B","C"]]
        (1/2) (1/2) 1).length ≤
      (run_apriori_analysis [["A","B"],["A","B"],["A","C"],["A","B","C"]]
        (1/2) (1/10) 1).length ∧
    (run_apriori_analysis [["A","B"],["A","B"],["A","C"],["A","B","C"]]
        (1/2) (1/10) 2).length ≤
      (run_apriori_analysis [["A","B"],["A","B"],["A","C"],["A","B","C"]]
        (1/2) (1/10) 1).length :=
  ⟨(spec_c7_threshold_monotonic [["A","B"],["A","B"],["A","C"],["A","B","C"]]
      (1/2) (3/4) (1/10) (1/2) 1 2).1 (by decide) (by decide),
   (spec_c7_threshold_monotonic [["A","B"],["A","B"],["A","C"],["A","B","C"]]
      (1/2) (3/4) (1/10) (1/2) 1 2).2.1 (by decide),
   (spec_c7_threshold_monotonic [["A","B"],["A","B"],["A","C"],["A","B","C"]]
      (1/2) (3/4) (1/10) (1/2) 1 2).2.2 (by decide)⟩

/-- Witness for C9: the empty collection gives an empty output, and a run
whose frequent stage is empty gives an empty output. -/
theorem spec_c9_empty_inputs_witness :
    run_apriori_analysis [] 1 (1/2) 1 = [] ∧
      run_apriori_analysis [["A"], ["B"]] (3/4) (1/2) 1 = [] :=
  ⟨(spec_c9_empty_inputs 1 (1/2) 1).1,
   (spec_c9_empty_inputs (3/4) (1/2) 1).2.2.1 [["A"], ["B"]] (by decide)⟩

/-- Witness for C10: a raise of the first stage (non-positive threshold) and
a hypothetical raise of the second stage both land in the empty frame. -/
theorem spec_c10_failures_caught_witness :
    run_apriori_analysis [["A"]] 0 (1/2) 1 = [] ∧
      run_apriori_analysis [["A"]] 2 (1/2) 1 = [] :=
  ⟨(spec_c10_failures_caught [["A"]] 0 (1/2) 1).1
      ⟨"min_support must be a positive number within the interval (0, 1]", rfl⟩,
   (spec_c10_failures_caught [["A"]] 2 (1/2) 1).2
      ⟨"The input DataFrame df containing the frequent itemsets is empty.", [],
        rfl, rfl⟩⟩

end ConcreteEvaluation

end NMap
